import Mathlib

/-!
Shallow embedding of the `cream` in-memory cache (src/src/lib.rs).

The cache stores `data : BTreeMap<K, (V, Instant)>`, an optional capacity
bound `max_keys`, an optional `ttl : Duration`, and an insertion-order
ledger `insert_order : VecDeque<K>`.  We model the `BTreeMap` as an
association list (kept key-sorted by `mapInsert`, matching the B-tree's
unique, ordered keys), `Instant`/`Duration` as `Nat` (a monotonic clock:
`inst.elapsed()` at time `now` is `now - inst`), and the `VecDeque` as a
`List` whose head is the front.  The background sweeper thread spawned by
`with_ttl` is modelled by `sweepCycle`, one iteration of its loop; the
`stop` flag and thread handle carry no sequential semantics and are
omitted.  All operations are single-threaded here: each lock acquisition
in the Rust code simply becomes a read or write of the corresponding
field.
-/

namespace Cream

/-- `BTreeMap::get`: first (= unique, for sorted-key lists) binding of `k`. -/
def mapGet {K β : Type} [DecidableEq K] (k : K) : List (K × β) → Option β
  | [] => none
  | (k', b) :: rest => if k = k' then some b else mapGet k rest

/-- `BTreeMap::insert` (the new map; the old value is `mapGet k m`):
insert at the sorted position, replacing the binding of `k` if present. -/
def mapInsert {K β : Type} [LinearOrder K] (k : K) (b : β) : List (K × β) → List (K × β)
  | [] => [(k, b)]
  | (k', b') :: rest =>
    if k < k' then (k, b) :: (k', b') :: rest
    else if k = k' then (k, b) :: rest
    else (k', b') :: mapInsert k b rest

/-- `BTreeMap::remove`: drop the first (= unique) binding of `k`. -/
def mapRemove {K β : Type} [DecidableEq K] (k : K) : List (K × β) → List (K × β)
  | [] => []
  | (k', b) :: rest => if k = k' then rest else (k', b) :: mapRemove k rest

/-- The keys of an association list, in storage order. -/
def mapKeys {K β : Type} (m : List (K × β)) : List K := m.map Prod.fst

/-- Well-formedness that the Rust `BTreeMap` guarantees: strictly
increasing (hence unique) keys. -/
def SortedKeys {K β : Type} [LinearOrder K] (m : List (K × β)) : Prop :=
  m.Pairwise (fun e₁ e₂ => e₁.1 < e₂.1)

/-- The `Cache` struct of src/src/lib.rs, restricted to its sequentially
meaningful fields.  `data` maps each key to `(value, Instant)`. -/
structure Cache (K V : Type) where
  data : List (K × V × Nat)
  max_keys : Option Nat
  ttl : Option Nat
  insert_order : List K

namespace Cache

variable {K V : Type}

/-- `Cache::new`: empty, unbounded, no TTL. -/
def new : Cache K V := ⟨[], none, none, []⟩

/-- `Cache::with_max_size`. -/
def with_max_size (c : Cache K V) (size : Nat) : Cache K V :=
  { c with max_keys := some size }

/-- `Cache::with_ttl`: records the TTL.  The thread it spawns is modelled
by `sweepCycle` below. -/
def with_ttl (c : Cache K V) (d : Nat) : Cache K V :=
  { c with ttl := some d }

/-- `Cache::put`: when a capacity bound is set and `data.len() >= max`,
pop the ledger front and, if that key is present, remove it from the
store; then insert `(key, (val, now))` (returning the previous value)
and push `key` on the back of the ledger. -/
def put [LinearOrder K] (c : Cache K V) (key : K) (val : V) (now : Nat) :
    Option V × Cache K V :=
  let c1 : Cache K V :=
    match c.max_keys with
    | some max =>
      if max ≤ c.data.length then
        match c.insert_order with
        | [] => c
        | o :: rest => { c with data := mapRemove o c.data, insert_order := rest }
      else c
    | none => c
  let inserted := (mapGet key c1.data).map Prod.fst
  (inserted, { c1 with data := mapInsert key (val, now) c1.data,
                       insert_order := c1.insert_order ++ [key] })

/-- `Cache::get` at read time `now`. -/
def get [DecidableEq K] (c : Cache K V) (key : K) (now : Nat) : Option V :=
  match mapGet key c.data with
  | some (v, inst) =>
    match c.ttl with
    | some ttl => if now - inst < ttl then some v else none
    | none => some v
  | none => none

/-- `Cache::keys` at read time `now` (the collected snapshot). -/
def keys (c : Cache K V) (now : Nat) : List K :=
  c.data.filterMap (fun e =>
    match c.ttl with
    | some ttl => if now - e.2.2 < ttl then some e.1 else none
    | none => some e.1)

/-- `Cache::values` at read time `now` (the collected snapshot). -/
def values (c : Cache K V) (now : Nat) : List V :=
  c.data.filterMap (fun e =>
    match c.ttl with
    | some ttl => if now - e.2.2 < ttl then some e.2.1 else none
    | none => some e.2.1)

/-- `Cache::exists` at read time `now`. -/
def exists_ [DecidableEq K] (c : Cache K V) (key : K) (now : Nat) : Bool :=
  match c.ttl with
  | some ttl =>
    match mapGet key c.data with
    | some (_, inst) => now - inst < ttl
    | none => false
  | none => (mapGet key c.data).isSome

/-- `Cache::remove`: delete `key` from the store unconditionally; on a
hit, also retain only ledger entries different from `key`. -/
def remove [DecidableEq K] (c : Cache K V) (key : K) : Option V × Cache K V :=
  let val := (mapGet key c.data).map Prod.fst
  let c1 : Cache K V := { c with data := mapRemove key c.data }
  match val with
  | some v => (some v, { c1 with insert_order := c1.insert_order.filter (fun j => j ≠ key) })
  | none => (none, c1)

/-- One iteration of the sweeper loop spawned by `with_ttl`: retain the
store entries with `elapsed < ttl`, then retain the ledger keys still
present in the (new) store. -/
def sweepCycle [DecidableEq K] (c : Cache K V) (now : Nat) : Cache K V :=
  match c.ttl with
  | some ttl =>
    let data := c.data.filter (fun e => decide (now - e.2.2 < ttl))
    { c with data := data,
             insert_order := c.insert_order.filter (fun k => (mapGet k data).isSome) }
  | none => c

/-- Run a sequence of `put` calls, each given as `(key, value, time)`. -/
def runPuts [LinearOrder K] (c : Cache K V) : List (K × V × Nat) → Cache K V
  | [] => c
  | (k, v, t) :: rest => runPuts (c.put k v t).2 rest

end Cache

/-- Verification invariant for the capacity argument: the bound is
configured as `m`, the ledger holds no duplicate keys and is a
permutation of the store's keys, and the store is within the bound.
It holds for a fresh bounded cache and is preserved by `put` as long as
no put overwrites an existing key. -/
def CapInv {K V : Type} (m : Nat) (c : Cache K V) : Prop :=
  c.max_keys = some m ∧ c.insert_order.Nodup ∧
    c.insert_order.Perm (mapKeys c.data) ∧ c.data.length ≤ m

section MapLemmas

variable {K β : Type}

theorem mapGet_mapInsert_self [LinearOrder K] (k : K) (b : β) (m : List (K × β)) :
    mapGet k (mapInsert k b m) = some b := by
  induction m with
  | nil => simp [mapInsert, mapGet]
  | cons e rest ih =>
    obtain ⟨k', b'⟩ := e
    by_cases h1 : k < k'
    · simp [mapInsert, h1, mapGet]
    · by_cases h2 : k = k'
      · simp [mapInsert, h1, h2, mapGet]
      · simp [mapInsert, h1, h2, mapGet, ih]

theorem mapGet_mapInsert_ne [LinearOrder K] {j k : K} (h : j ≠ k) (b : β)
    (m : List (K × β)) : mapGet j (mapInsert k b m) = mapGet j m := by
  induction m with
  | nil => simp [mapInsert, mapGet, h]
  | cons e rest ih =>
    obtain ⟨k', b'⟩ := e
    by_cases h1 : k < k'
    · rw [show mapInsert k b ((k', b') :: rest) = (k, b) :: (k', b') :: rest from by
        simp [mapInsert, h1]]
      rw [mapGet, if_neg h]
    · by_cases h2 : k = k'
      · subst h2
        rw [show mapInsert k b ((k, b') :: rest) = (k, b) :: rest from by
          simp [mapInsert, h1]]
        rw [mapGet, if_neg h, mapGet, if_neg h]
      · rw [show mapInsert k b ((k', b') :: rest) = (k', b') :: mapInsert k b rest from by
          simp [mapInsert, h1, h2]]
        by_cases hj : j = k'
        · rw [mapGet, if_pos hj, mapGet, if_pos hj]
        · rw [mapGet, if_neg hj, mapGet, if_neg hj, ih]

theorem mapGet_eq_none_iff [DecidableEq K] {k : K} {m : List (K × β)} :
    mapGet k m = none ↔ k ∉ mapKeys m := by
  induction m with
  | nil => simp [mapGet, mapKeys]
  | cons e rest ih =>
    obtain ⟨k', b'⟩ := e
    by_cases h : k = k'
    · simp [mapGet, h, mapKeys]
    · simp [mapGet, h, mapKeys, ih]

theorem mapGet_mem [DecidableEq K] {k : K} {b : β} {m : List (K × β)}
    (h : mapGet k m = some b) : (k, b) ∈ m := by
  induction m with
  | nil => simp [mapGet] at h
  | cons e rest ih =>
    obtain ⟨k', b'⟩ := e
    by_cases hk : k = k'
    · simp [mapGet, hk] at h
      simp [hk, h]
    · simp [mapGet, hk] at h
      simp [ih h]

theorem mapGet_isSome_iff [DecidableEq K] {k : K} {m : List (K × β)} :
    (mapGet k m).isSome = true ↔ k ∈ mapKeys m := by
  constructor
  · intro hs
    cases h : mapGet k m with
    | none => rw [h] at hs; cases hs
    | some b => exact List.mem_map_of_mem Prod.fst (mapGet_mem h)
  · intro hk
    cases h : mapGet k m with
    | none => exact absurd hk (mapGet_eq_none_iff.mp h)
    | some b => rfl

theorem mem_eq_of_mapGet [DecidableEq K] {k : K} {b b' : β} {m : List (K × β)}
    (hnd : (mapKeys m).Nodup) (h : mapGet k m = some b) (hmem : (k, b') ∈ m) :
    b' = b := by
  induction m with
  | nil => simp at hmem
  | cons e rest ih =>
    obtain ⟨k', b''⟩ := e
    rw [mapKeys, List.map_cons, List.nodup_cons] at hnd
    rcases List.mem_cons.mp hmem with he | he
    · have hk : k = k' := congrArg Prod.fst he
      have hb : b' = b'' := congrArg Prod.snd he
      rw [mapGet, if_pos hk] at h
      rw [hb]
      exact Option.some.inj h
    · have hk : k ≠ k' := by
        intro hkk
        apply hnd.1
        rw [← hkk]
        exact List.mem_map.mpr ⟨(k, b'), he, rfl⟩
      rw [mapGet, if_neg hk] at h
      exact ih hnd.2 h he

theorem mapGet_eq_of_mem [DecidableEq K] {k : K} {b : β} {m : List (K × β)}
    (hnd : (mapKeys m).Nodup) (hmem : (k, b) ∈ m) : mapGet k m = some b := by
  induction m with
  | nil => simp at hmem
  | cons e rest ih =>
    obtain ⟨k', b'⟩ := e
    rw [mapKeys, List.map_cons, List.nodup_cons] at hnd
    rcases List.mem_cons.mp hmem with he | he
    · have hk : k = k' := congrArg Prod.fst he
      have hb : b = b' := congrArg Prod.snd he
      rw [mapGet, if_pos hk, hb]
    · have hk : k ≠ k' := by
        intro hkk
        apply hnd.1
        rw [← hkk]
        exact List.mem_map.mpr ⟨(k, b), he, rfl⟩
      rw [mapGet, if_neg hk]
      exact ih hnd.2 he

theorem mapRemove_eq_self_of_none [DecidableEq K] {k : K} {m : List (K × β)}
    (h : mapGet k m = none) : mapRemove k m = m := by
  induction m with
  | nil => simp [mapRemove]
  | cons e rest ih =>
    obtain ⟨k', b'⟩ := e
    by_cases hk : k = k'
    · simp [mapGet, hk] at h
    · simp [mapGet, hk] at h
      simp [mapRemove, hk, ih h]

theorem mapKeys_mapRemove [DecidableEq K] (k : K) (m : List (K × β)) :
    mapKeys (mapRemove k m) = (mapKeys m).erase k := by
  induction m with
  | nil => simp [mapRemove, mapKeys]
  | cons e rest ih =>
    obtain ⟨k', b'⟩ := e
    by_cases hk : k = k'
    · subst hk
      simp [mapRemove, mapKeys, List.erase_cons]
    · have hne : (k' == k) = false := beq_eq_false_iff_ne.mpr (Ne.symm hk)
      simp only [mapRemove, if_neg hk, mapKeys, List.map_cons, List.erase_cons, hne,
        Bool.false_eq_true, if_false]
      exact congrArg (List.cons k') (by simpa [mapKeys] using ih)

theorem mem_mapInsert [LinearOrder K] {e : K × β} {k : K} {b : β} {m : List (K × β)}
    (h : e ∈ mapInsert k b m) : e = (k, b) ∨ e ∈ m := by
  induction m with
  | nil =>
    rw [show mapInsert k b ([] : List (K × β)) = [(k, b)] from rfl] at h
    rcases List.mem_cons.mp h with h | h
    · exact Or.inl h
    · simp at h
  | cons e' rest ih =>
    obtain ⟨k', b'⟩ := e'
    by_cases h1 : k < k'
    · rw [show mapInsert k b ((k', b') :: rest) = (k, b) :: (k', b') :: rest from by
        simp [mapInsert, h1]] at h
      rcases List.mem_cons.mp h with h | h
      · exact Or.inl h
      · exact Or.inr h
    · by_cases h2 : k = k'
      · subst h2
        rw [show mapInsert k b ((k, b') :: rest) = (k, b) :: rest from by
          simp [mapInsert, h1]] at h
        rcases List.mem_cons.mp h with h | h
        · exact Or.inl h
        · exact Or.inr (List.mem_cons_of_mem _ h)
      · rw [show mapInsert k b ((k', b') :: rest) = (k', b') :: mapInsert k b rest from by
          simp [mapInsert, h1, h2]] at h
        rcases List.mem_cons.mp h with h | h
        · exact Or.inr (h ▸ List.mem_cons_self _ _)
        · rcases ih h with h' | h'
          · exact Or.inl h'
          · exact Or.inr (List.mem_cons_of_mem _ h')

theorem mem_mapKeys_mapInsert [LinearOrder K] {j k : K} (b : β) (m : List (K × β)) :
    j ∈ mapKeys (mapInsert k b m) ↔ j = k ∨ j ∈ mapKeys m := by
  constructor
  · intro hj
    rcases List.mem_map.mp hj with ⟨e, he, hje⟩
    rcases mem_mapInsert he with he' | he'
    · subst he'
      exact Or.inl hje.symm
    · exact Or.inr (hje ▸ List.mem_map_of_mem Prod.fst he')
  · intro hj
    rcases hj with hj | hj
    · subst hj
      exact List.mem_map_of_mem Prod.fst (mapGet_mem (mapGet_mapInsert_self j b m))
    · by_cases hjk : j = k
      · subst hjk
        exact List.mem_map_of_mem Prod.fst (mapGet_mem (mapGet_mapInsert_self j b m))
      · rcases List.mem_map.mp hj with ⟨e, he, hje⟩
        have : mapGet j m ≠ none := by
          intro hn
          exact (mapGet_eq_none_iff.mp hn) hj
        cases hg : mapGet j m with
        | none => exact absurd hg this
        | some b0 =>
          have : mapGet j (mapInsert k b m) = some b0 := by
            rw [mapGet_mapInsert_ne hjk, hg]
          exact List.mem_map_of_mem Prod.fst (mapGet_mem this)

theorem mapKeys_mapInsert_perm [LinearOrder K] {k : K} (b : β) {m : List (K × β)}
    (h : k ∉ mapKeys m) : (mapKeys (mapInsert k b m)).Perm (k :: mapKeys m) := by
  induction m with
  | nil => exact List.Perm.refl _
  | cons e rest ih =>
    obtain ⟨k', b'⟩ := e
    simp only [mapKeys, List.map_cons, List.mem_cons, not_or] at h
    by_cases h1 : k < k'
    · rw [show mapInsert k b ((k', b') :: rest) = (k, b) :: (k', b') :: rest from by
        simp [mapInsert, h1]]
      exact List.Perm.refl _
    · have h2 : k ≠ k' := h.1
      rw [show mapInsert k b ((k', b') :: rest) = (k', b') :: mapInsert k b rest from by
        simp [mapInsert, h1, h2]]
      show List.Perm (k' :: mapKeys (mapInsert k b rest)) (k :: k' :: mapKeys rest)
      exact ((ih h.2).cons k').trans (List.Perm.swap k k' _)

theorem sortedKeys_mapInsert [LinearOrder K] {k : K} {b : β} {m : List (K × β)}
    (h : SortedKeys m) : SortedKeys (mapInsert k b m) := by
  induction m with
  | nil =>
    rw [show mapInsert k b ([] : List (K × β)) = [(k, b)] from rfl]
    exact List.pairwise_singleton _ _
  | cons e rest ih =>
    obtain ⟨k', b'⟩ := e
    rw [SortedKeys, List.pairwise_cons] at h
    obtain ⟨hlt, hrest⟩ := h
    by_cases h1 : k < k'
    · rw [show mapInsert k b ((k', b') :: rest) = (k, b) :: (k', b') :: rest from by
        simp [mapInsert, h1]]
      rw [SortedKeys, List.pairwise_cons]
      refine ⟨?_, ?_⟩
      · intro e he
        rcases List.mem_cons.mp he with he | he
        · subst he; exact h1
        · exact lt_trans h1 (hlt e he)
      · rw [List.pairwise_cons]
        exact ⟨hlt, hrest⟩
    · by_cases h2 : k = k'
      · subst h2
        rw [show mapInsert k b ((k, b') :: rest) = (k, b) :: rest from by
          simp [mapInsert, h1]]
        rw [SortedKeys, List.pairwise_cons]
        exact ⟨hlt, hrest⟩
      · rw [show mapInsert k b ((k', b') :: rest) = (k', b') :: mapInsert k b rest from by
          simp [mapInsert, h1, h2]]
        rw [SortedKeys, List.pairwise_cons]
        refine ⟨?_, ih hrest⟩
        intro e he
        rcases mem_mapInsert he with he' | he'
        · subst he'
          exact lt_of_le_of_ne (not_lt.mp h1) (Ne.symm h2)
        · exact hlt e he'

theorem SortedKeys.nodupKeys [LinearOrder K] {m : List (K × β)} (h : SortedKeys m) :
    (mapKeys m).Nodup :=
  List.Pairwise.map Prod.fst (fun _ _ hab => ne_of_lt hab) h

theorem filterMap_some_fst (l : List (K × β)) :
    l.filterMap (fun e => some e.1) = l.map Prod.fst := by
  induction l with
  | nil => rfl
  | cons e rest ih => simp [List.filterMap_cons, ih]

theorem filterMap_mapRemove_of_none [DecidableEq K] {γ : Type} {k : K} {b : β}
    {m : List (K × β)} (f : K × β → Option γ) (hg : mapGet k m = some b)
    (hf : f (k, b) = none) : (mapRemove k m).filterMap f = m.filterMap f := by
  induction m with
  | nil => simp [mapGet] at hg
  | cons e rest ih =>
    obtain ⟨k', b'⟩ := e
    by_cases hk : k = k'
    · subst hk
      rw [mapGet, if_pos rfl] at hg
      have hb : b' = b := Option.some.inj hg
      subst hb
      rw [show mapRemove k ((k, b') :: rest) = rest from by simp [mapRemove]]
      simp [List.filterMap_cons, hf]
    · rw [show mapRemove k ((k', b') :: rest) = (k', b') :: mapRemove k rest from by
        simp [mapRemove, hk]]
      rw [mapGet, if_neg hk] at hg
      rw [List.filterMap_cons, List.filterMap_cons, ih hg]

end MapLemmas

section CacheLemmas

variable {K V : Type}

/-- `put` when no eviction can trigger: pure insert plus ledger append. -/
theorem put_of_lt_cap [LinearOrder K] {c : Cache K V} {k : K} {v : V} {t : Nat}
    (h : ∀ m, c.max_keys = some m → c.data.length < m) :
    c.put k v t = ((mapGet k c.data).map Prod.fst,
      { c with data := mapInsert k (v, t) c.data,
               insert_order := c.insert_order ++ [k] }) := by
  cases hmk : c.max_keys with
  | none => simp [Cache.put, hmk]
  | some m => simp [Cache.put, hmk, Nat.not_le.mpr (h m hmk)]

/-- `keys` with no TTL configured is the raw key list of the store. -/
theorem keys_ttl_none {c : Cache K V} (h : c.ttl = none) (t : Nat) :
    c.keys t = mapKeys c.data := by
  simp only [Cache.keys, h]
  exact filterMap_some_fst c.data

/-- `CapInv` is preserved by a `put` whose key is fresh (not a store
key), provided the bound is at least 1, and every store key afterwards is
the new key or an old store key. -/
theorem capInv_put [LinearOrder K] {m : Nat} {c : Cache K V} {k : K} {v : V} {t : Nat}
    (hm : 1 ≤ m) (hinv : CapInv m c) (hk : k ∉ mapKeys c.data) :
    CapInv m (c.put k v t).2 ∧
      ∀ j ∈ mapKeys (c.put k v t).2.data, j = k ∨ j ∈ mapKeys c.data := by
  obtain ⟨hmk, hnd, hperm, hlen⟩ := hinv
  have hkord : k ∉ c.insert_order := fun hmem => hk (hperm.mem_iff.mp hmem)
  by_cases hcap : c.data.length < m
  · have hput := put_of_lt_cap (k := k) (v := v) (t := t)
      (fun m' hm' => by rw [hmk] at hm'; exact (Option.some.inj hm') ▸ hcap)
    rw [hput]
    have hkeys := mapKeys_mapInsert_perm ((v, t)) hk
    refine ⟨⟨hmk, ?_, ?_, ?_⟩, ?_⟩
    · refine hnd.append (List.nodup_singleton k) ?_
      intro a ha hb
      rw [List.mem_singleton.mp hb] at ha
      exact hkord ha
    · exact ((List.perm_append_singleton k c.insert_order).trans (hperm.cons k)).trans
        hkeys.symm
    · show (mapInsert k (v, t) c.data).length ≤ m
      have h1 := hkeys.length_eq
      simp only [mapKeys, List.length_map, List.length_cons] at h1
      omega
    · intro j hj
      exact (mem_mapKeys_mapInsert _ _).mp hj
  · have hmle : m ≤ c.data.length := Nat.le_of_not_lt hcap
    have hordlen : c.insert_order.length = c.data.length := by
      have h1 := hperm.length_eq
      simpa [mapKeys] using h1
    cases horder : c.insert_order with
    | nil =>
      rw [horder] at hordlen
      simp at hordlen
      omega
    | cons f rest =>
      have hput : c.put k v t =
          ((mapGet k (mapRemove f c.data)).map Prod.fst,
            { c with data := mapInsert k (v, t) (mapRemove f c.data),
                     insert_order := rest ++ [k] }) := by
        simp [Cache.put, hmk, hmle, horder]
      rw [hput]
      have hfr := List.cons_perm_iff_perm_erase.mp (horder ▸ hperm)
      have hkeys1 : mapKeys (mapRemove f c.data) = (mapKeys c.data).erase f :=
        mapKeys_mapRemove f c.data
      have hrest : rest.Perm (mapKeys (mapRemove f c.data)) := by
        rw [hkeys1]
        exact hfr.2
      have hk1 : k ∉ mapKeys (mapRemove f c.data) := by
        rw [hkeys1]
        intro hmem
        exact hk (List.erase_subset _ _ hmem)
      have hkeys := mapKeys_mapInsert_perm ((v, t)) hk1
      have hnd' : (f :: rest).Nodup := horder ▸ hnd
      have hkrest : k ∉ rest := fun hmem => hkord (horder.symm ▸ List.mem_cons_of_mem f hmem)
      refine ⟨⟨hmk, ?_, ?_, ?_⟩, ?_⟩
      · refine hnd'.of_cons.append (List.nodup_singleton k) ?_
        intro x hx hb
        rw [List.mem_singleton.mp hb] at hx
        exact hkrest hx
      · exact ((List.perm_append_singleton k rest).trans (hrest.cons k)).trans hkeys.symm
      · show (mapInsert k (v, t) (mapRemove f c.data)).length ≤ m
        have h1 := hkeys.length_eq
        have h2 := hrest.length_eq
        have h3 : rest.length + 1 = c.data.length := by
          rw [horder] at hordlen
          simpa using hordlen
        simp only [mapKeys, List.length_map, List.length_cons] at h1 h2
        omega
      · intro j hj
        rcases (mem_mapKeys_mapInsert _ _).mp hj with hj' | hj'
        · exact Or.inl hj'
        · rw [hkeys1] at hj'
          exact Or.inr (List.erase_subset _ _ hj')

/-- `CapInv` is preserved by any sequence of `put`s whose keys are
pairwise distinct and disjoint from the current store. -/
theorem capInv_runPuts [LinearOrder K] {m : Nat} (hm : 1 ≤ m) :
    ∀ (ops : List (K × V × Nat)) (c : Cache K V),
      (ops.map (fun e => e.1)).Nodup → CapInv m c →
      (∀ j ∈ mapKeys c.data, j ∉ ops.map (fun e => e.1)) →
      CapInv m (c.runPuts ops) := by
  intro ops
  induction ops with
  | nil =>
    intro c _ hinv _
    exact hinv
  | cons e rest ih =>
    obtain ⟨k, v, t⟩ := e
    intro c hnd hinv hdisj
    simp only [List.map_cons, List.nodup_cons] at hnd
    have hk : k ∉ mapKeys c.data := fun hmem => hdisj k hmem (by simp)
    obtain ⟨hinv', hsub⟩ := capInv_put (v := v) (t := t) hm hinv hk
    refine ih (c.put k v t).2 hnd.2 hinv' ?_
    intro j hj hjrest
    rcases hsub j hj with hj' | hj'
    · subst hj'
      exact hnd.1 hjrest
    · exact hdisj j hj' (List.mem_cons_of_mem _ hjrest)

/-- `put` on a cache tracking exactly one or zero entries with a
configured bound of 0 always leaves exactly the entry just put. -/
theorem put_max0 [LinearOrder K] {c : Cache K V} {k : K} {v : V} {t : Nat}
    (h : c.max_keys = some 0)
    (hc : (c.data = [] ∧ c.insert_order = []) ∨
      ∃ k0 v0 t0, c.data = [(k0, (v0, t0))] ∧ c.insert_order = [k0]) :
    (c.put k v t).2.data = [(k, (v, t))] ∧ (c.put k v t).2.insert_order = [k] ∧
      (c.put k v t).2.max_keys = some 0 := by
  rcases hc with ⟨hd, ho⟩ | ⟨k0, v0, t0, hd, ho⟩
  · simp [Cache.put, h, hd, ho, mapInsert]
  · simp [Cache.put, h, hd, ho, mapRemove, mapInsert]

/-- Running any `put` sequence from a zero-capacity singleton-or-empty
state leaves exactly the last put's entry. -/
theorem runPuts_max0 [LinearOrder K] :
    ∀ (ops : List (K × V × Nat)) (c : Cache K V), c.max_keys = some 0 →
      ((c.data = [] ∧ c.insert_order = []) ∨
        ∃ k0 v0 t0, c.data = [(k0, (v0, t0))] ∧ c.insert_order = [k0]) →
      ∀ k v t, (c.runPuts (ops ++ [(k, v, t)])).data = [(k, (v, t))] ∧
        (c.runPuts (ops ++ [(k, v, t)])).insert_order = [k] := by
  intro ops
  induction ops with
  | nil =>
    intro c h hc k v t
    obtain ⟨h1, h2, _⟩ := put_max0 (k := k) (v := v) (t := t) h hc
    exact ⟨h1, h2⟩
  | cons e rest ih =>
    obtain ⟨k1, v1, t1⟩ := e
    intro c h hc k v t
    obtain ⟨h1, h2, h3⟩ := put_max0 (k := k1) (v := v1) (t := t1) h hc
    exact ih (c.put k1 v1 t1).2 h3 (Or.inr ⟨k1, v1, t1, h1, h2⟩) k v t

end CacheLemmas

section Claims

variable {K V : Type}

/-- Claim C7: for every cache state, key `k`, and read time, `exists`
returns true if and only if `get` returns some value; it applies the same
TTL-liveness rule as `get`. -/
theorem exists_iff_get_isSome [DecidableEq K] (c : Cache K V) (k : K) (t : Nat) :
    c.exists_ k t = (c.get k t).isSome := by
  cases httl : c.ttl with
  | none =>
    cases hg : mapGet k c.data with
    | none => simp [Cache.exists_, Cache.get, httl, hg]
    | some e =>
      obtain ⟨v, inst⟩ := e
      simp [Cache.exists_, Cache.get, httl, hg]
  | some d =>
    cases hg : mapGet k c.data with
    | none => simp [Cache.exists_, Cache.get, httl, hg]
    | some e =>
      obtain ⟨v, inst⟩ := e
      by_cases hl : t - inst < d
      · simp [Cache.exists_, Cache.get, httl, hg, hl]
      · simp [Cache.exists_, Cache.get, httl, hg, hl]

/-- Claim C6: `remove` on a physically present key (even one past its
TTL) returns the stored value, deletes the key from the store, and drops
every occurrence of the key from the ledger; on an absent key it returns
none and changes nothing. -/
theorem remove_spec [DecidableEq K] (c : Cache K V) (k : K) :
    (∀ v ts, mapGet k c.data = some (v, ts) →
      c.remove k = (some v,
        { c with data := mapRemove k c.data,
                 insert_order := c.insert_order.filter (fun j => j ≠ k) })) ∧
    (mapGet k c.data = none → c.remove k = (none, c)) := by
  constructor
  · intro v ts hg
    simp [Cache.remove, hg]
  · intro hg
    simp [Cache.remove, hg, mapRemove_eq_self_of_none hg]

/-- Witness for C6: a cache with TTL 1 whose entry for key 0, inserted at
time 0, is long expired; `remove` still returns the stored value 5,
empties the store, and drops both ledger occurrences of the key. -/
theorem remove_spec_witness :
    (⟨[(0, (5, 0))], none, some 1, [0, 0]⟩ : Cache Nat Nat).remove 0 =
      (some 5, ⟨[], none, some 1, []⟩) := by
  have h := (remove_spec (⟨[(0, (5, 0))], none, some 1, [0, 0]⟩ : Cache Nat Nat) 0).1 5 0 rfl
  exact h.trans rfl

/-- Claim C5: with no capacity eviction intervening, `put` returns
exactly the previously stored value: none when the key was absent, and
`Some v1` for a second `put` on the same key right after `put(k, v1)`. -/
theorem put_returns_prev [LinearOrder K] (c : Cache K V) (k : K) (v1 v2 : V)
    (t1 t2 : Nat) (hcap : ∀ m, c.max_keys = some m → c.data.length < m) :
    ((c.put k v1 t1).1 = (mapGet k c.data).map Prod.fst) ∧
    ((c.put k v1 t1).1.isSome = (mapGet k c.data).isSome) ∧
    ((∀ m, (c.put k v1 t1).2.max_keys = some m → (c.put k v1 t1).2.data.length < m) →
      ((c.put k v1 t1).2.put k v2 t2).1 = some v1) := by
  have h1 := put_of_lt_cap (k := k) (v := v1) (t := t1) hcap
  refine ⟨?_, ?_, ?_⟩
  · rw [h1]
  · rw [h1]
    cases mapGet k c.data <;> rfl
  · intro hcap2
    have h2 := put_of_lt_cap (k := k) (v := v2) (t := t2) hcap2
    rw [h2, h1]
    simp [mapGet_mapInsert_self]

/-- Witness for C5: on a fresh unbounded cache, `put 0 1` then `put 0 2`
returns `some 1` the second time. -/
theorem put_returns_prev_witness :
    (((Cache.new (K := Nat) (V := Nat)).put 0 1 0).2.put 0 2 1).1 = some 1 := by
  refine (put_returns_prev (Cache.new (K := Nat) (V := Nat)) 0 1 2 0 1 ?_).2.2 ?_
  · intro m hm
    exact Option.noConfusion hm
  · intro m hm
    exact Option.noConfusion hm

/-- Claim C4: when `put` finds the store at or above capacity and the
ledger's front key is absent from the store, the pop still happens
(exactly one ledger entry removed) but nothing is deleted from the
store, and the new key is inserted and appended regardless. -/
theorem put_stale_front [LinearOrder K] {c : Cache K V} {k f : K} {v : V} {t m : Nat}
    {rest : List K} (h : c.max_keys = some m) (hlen : m ≤ c.data.length)
    (ho : c.insert_order = f :: rest) (hf : mapGet f c.data = none) :
    c.put k v t = ((mapGet k c.data).map Prod.fst,
      { c with data := mapInsert k (v, t) c.data, insert_order := rest ++ [k] }) := by
  simp [Cache.put, h, hlen, ho, mapRemove_eq_self_of_none hf]

/-- Witness for C4: capacity 1, store holding only key 1 while the stale
ledger front is key 0; `put 2` pops the stale entry, removes nothing, and
inserts key 2, leaving the store above its bound. -/
theorem put_stale_front_witness :
    (⟨[(1, (5, 0))], some 1, none, [0, 1]⟩ : Cache Nat Nat).put 2 7 3 =
      (none, ⟨[(1, (5, 0)), (2, (7, 3))], some 1, none, [1, 2]⟩) := by
  have h := @put_stale_front Nat Nat _ ⟨[(1, (5, 0))], some 1, none, [0, 1]⟩ 2 0 7 3 1 [1]
    rfl (by decide) rfl (by decide)
  exact h.trans rfl

/-- Claim C2: with `ttl = d` configured and an entry for `k` inserted at
time `t0` still physically present, every read at time `t` (monotone
clock: `t0 ≤ t`) observes the entry through `get`, `exists`, `keys` and
`values` exactly when `t < t0 + d` (strict inequality); at `t ≥ t0 + d`
the entry contributes nothing, exactly as if it had been physically
removed. -/
theorem ttl_boundary [DecidableEq K] {c : Cache K V} {k : K} {v : V} {d t0 t : Nat}
    (hnd : (mapKeys c.data).Nodup) (httl : c.ttl = some d)
    (hg : mapGet k c.data = some (v, t0)) (hm : t0 ≤ t) :
    (c.get k t = some v ↔ t < t0 + d) ∧
    (c.exists_ k t = true ↔ t < t0 + d) ∧
    (k ∈ c.keys t ↔ t < t0 + d) ∧
    (t < t0 + d → v ∈ c.values t) ∧
    (t0 + d ≤ t → c.values t = Cache.values { c with data := mapRemove k c.data } t) := by
  refine ⟨?_, ?_, ?_, ?_, ?_⟩
  · by_cases hl : t - t0 < d
    · simp only [Cache.get, hg, httl, if_pos hl]
      constructor
      · intro _; omega
      · intro _; trivial
    · simp only [Cache.get, hg, httl, if_neg hl]
      constructor
      · intro hfalse; exact Option.noConfusion hfalse
      · intro hlt; omega
  · by_cases hl : t - t0 < d
    · simp only [Cache.exists_, hg, httl, decide_eq_true_eq]
      omega
    · simp only [Cache.exists_, hg, httl, decide_eq_true_eq]
      omega
  · constructor
    · intro hk
      simp only [Cache.keys, httl] at hk
      rcases List.mem_filterMap.mp hk with ⟨e, hemem, hfe⟩
      obtain ⟨k1, v1, ts1⟩ := e
      by_cases hl : t - ts1 < d
      · rw [if_pos hl] at hfe
        have hk1 : k1 = k := Option.some.inj hfe
        subst hk1
        have := mem_eq_of_mapGet hnd hg hemem
        have hts : ts1 = t0 := by
          have := congrArg Prod.snd this
          simpa using this
        omega
      · rw [if_neg hl] at hfe
        exact Option.noConfusion hfe
    · intro hlt
      simp only [Cache.keys, httl]
      refine List.mem_filterMap.mpr ⟨(k, (v, t0)), mapGet_mem hg, ?_⟩
      simp only
      rw [if_pos (by omega)]
  · intro hlt
    simp only [Cache.values, httl]
    refine List.mem_filterMap.mpr ⟨(k, (v, t0)), mapGet_mem hg, ?_⟩
    simp only
    rw [if_pos (by omega)]
  · intro hge
    simp only [Cache.values, httl]
    exact (filterMap_mapRemove_of_none
      (fun e : K × V × Nat => if t - e.2.2 < d then some e.2.1 else none) hg
      (by simp only; rw [if_neg (by omega)])).symm

/-- Witness for C2: TTL 10, entry for key 0 inserted at time 0; a read at
time 3 (before expiry) sees value 5. -/
theorem ttl_boundary_witness :
    (⟨[(0, (5, 0))], none, some 10, [0]⟩ : Cache Nat Nat).get 0 3 = some 5 := by
  have h := @ttl_boundary Nat Nat _ ⟨[(0, (5, 0))], none, some 10, [0]⟩ 0 5 10 0 3
    (by decide) rfl rfl (by decide)
  exact h.1.mpr (by decide)

/-- Counterexample for C8 as stated: with `ttl = 5`, an entry created at
time 0 and swept at time 5 has age exactly 5, which does *not* exceed 5,
yet the sweep deletes it (the code retains only entries with
`elapsed < ttl`, so it deletes age `≥ ttl`, not only age `> ttl`). -/
theorem sweep_boundary_cex :
    mapGet 0 ((Cache.sweepCycle (⟨[(0, (7, 0))], none, some 5, [0]⟩ : Cache Nat Nat) 5).data)
      = none ∧ ¬ (5 - 0 > 5) := by
  constructor
  · rfl
  · decide

/-- Claim C8 (amended): one sweep cycle at time `t` with `ttl = d` keeps
exactly the store entries whose age at `t` is strictly less than `d`
(deleting the expired ones, age `≥ d`), then drops every ledger key no
longer in the store; afterwards every ledger key is a store key and no
expired entry remains. -/
theorem sweep_spec [DecidableEq K] {c : Cache K V} {d : Nat} (t : Nat)
    (httl : c.ttl = some d) (hnd : (mapKeys c.data).Nodup) :
    (∀ k v ts, mapGet k (c.sweepCycle t).data = some (v, ts) ↔
        (mapGet k c.data = some (v, ts) ∧ t - ts < d)) ∧
    (∀ k ∈ (c.sweepCycle t).insert_order, k ∈ mapKeys (c.sweepCycle t).data) ∧
    (∀ e ∈ (c.sweepCycle t).data, t - e.2.2 < d) := by
  have hdata : (c.sweepCycle t).data = c.data.filter (fun e => decide (t - e.2.2 < d)) := by
    simp [Cache.sweepCycle, httl]
  have hndf : (mapKeys (c.data.filter (fun e => decide (t - e.2.2 < d)))).Nodup :=
    ((c.data.filter_sublist.map Prod.fst).nodup hnd)
  refine ⟨?_, ?_, ?_⟩
  · intro k v ts
    rw [hdata]
    constructor
    · intro h
      have hmem := mapGet_mem h
      have h1 := List.mem_filter.mp hmem
      refine ⟨mapGet_eq_of_mem hnd h1.1, ?_⟩
      exact of_decide_eq_true h1.2
    · intro h
      refine mapGet_eq_of_mem hndf (List.mem_filter.mpr ⟨mapGet_mem h.1, ?_⟩)
      exact decide_eq_true h.2
  · intro k hk
    simp only [Cache.sweepCycle, httl] at hk ⊢
    have h1 := List.mem_filter.mp hk
    exact mapGet_isSome_iff.mp h1.2
  · intro e he
    rw [hdata] at he
    exact of_decide_eq_true (List.mem_filter.mp he).2

/-- Witness for the amended C8: sweeping at time 8 with TTL 5 keeps the
entry created at time 6 (age 2). -/
theorem sweep_spec_witness :
    mapGet 1 ((Cache.sweepCycle
      (⟨[(0, (10, 0)), (1, (20, 6))], none, some 5, [0, 1]⟩ : Cache Nat Nat) 8).data)
      = some (20, 6) := by
  exact ((@sweep_spec Nat Nat _ ⟨[(0, (10, 0)), (1, (20, 6))], none, some 5, [0, 1]⟩ 5 8
    rfl (by decide)).1 1 20 6).mpr ⟨rfl, by decide⟩

/-- Counterexample for C1 as stated: the bound can be exceeded.  With
`max_size = 2`, the single-threaded sequence `put 0, put 0, put 1, put 2,
put 3` leaves 3 entries (the overwrite of key 0 duplicated it in the
ledger, so a later eviction pops a stale front and removes nothing).
Also, with `max_size = 0` and distinct keys, a single put leaves 1 entry,
above the bound 0. -/
theorem capacity_bound_cex :
    (((Cache.new (K := Nat) (V := Nat)).with_max_size 2).runPuts
      [(0, 1, 0), (0, 2, 1), (1, 3, 2), (2, 4, 3), (3, 5, 4)]).data.length = 3 ∧
    (((Cache.new (K := Nat) (V := Nat)).with_max_size 0).runPuts
      [(0, 1, 0)]).data.length = 1 := by
  constructor
  · rfl
  · rfl

/-- Claim C1 (amended): for `max_size = m ≥ 1` and any single-threaded
sequence of `put` calls with pairwise-distinct keys (no overwrites) on a
fresh cache, after each `put` (i.e. after every prefix of the sequence)
the number of store entries is at most `m`. -/
theorem capacity_bound [LinearOrder K] (m : Nat) (ops p q : List (K × V × Nat))
    (hm : 1 ≤ m) (hnd : (ops.map (fun e => e.1)).Nodup) (hsplit : ops = p ++ q) :
    (((Cache.new (K := K) (V := V)).with_max_size m).runPuts p).data.length ≤ m := by
  subst hsplit
  rw [List.map_append] at hnd
  have hndp := hnd.of_append_left
  have h0 : CapInv m ((Cache.new (K := K) (V := V)).with_max_size m) := by
    refine ⟨rfl, List.nodup_nil, List.Perm.refl _, ?_⟩
    show ([] : List (K × V × Nat)).length ≤ m
    simp
  have h := capInv_runPuts hm p _ hndp h0 ?_
  · exact h.2.2.2
  · intro j hj
    simp [Cache.new, Cache.with_max_size, mapKeys] at hj

/-- Witness for the amended C1: two distinct puts under bound 2 leave at
most 2 entries. -/
theorem capacity_bound_witness :
    (((Cache.new (K := Nat) (V := Nat)).with_max_size 2).runPuts
      [(0, 1, 0), (1, 2, 1)]).data.length ≤ 2 :=
  capacity_bound 2 [(0, 1, 0), (1, 2, 1)] [(0, 1, 0), (1, 2, 1)] [] (by decide)
    (by decide) (by simp)

/-- Claim C3: on a fresh cache with `max_size = 2` and no TTL, the
sequence `put a, put b, put c` on three distinct keys evicts exactly the
oldest key `a`: `keys` is exactly `{b, c}` and `exists a` is false. -/
theorem fifo_scenario [LinearOrder K] (a b c : K) (v1 v2 v3 : V) (t1 t2 t3 tr : Nat)
    (hab : a ≠ b) (hac : a ≠ c) (hbc : b ≠ c) :
    ((((Cache.new (K := K) (V := V)).with_max_size 2).runPuts
        [(a, v1, t1), (b, v2, t2), (c, v3, t3)]).keys tr).Perm [b, c] ∧
    (((Cache.new (K := K) (V := V)).with_max_size 2).runPuts
        [(a, v1, t1), (b, v2, t2), (c, v3, t3)]).exists_ a tr = false := by
  have h1 : ((Cache.new (K := K) (V := V)).with_max_size 2).put a v1 t1 =
      (none, ⟨[(a, (v1, t1))], some 2, none, [a]⟩) := rfl
  have h2 : (⟨[(a, (v1, t1))], some 2, none, [a]⟩ : Cache K V).put b v2 t2 =
      ((mapGet b [(a, (v1, t1))]).map Prod.fst,
        ⟨mapInsert b (v2, t2) [(a, (v1, t1))], some 2, none, [a, b]⟩) := by
    exact put_of_lt_cap (fun m' hm' => by
      have h2 : m' = 2 := (Option.some.inj hm').symm
      subst h2
      show ([(a, (v1, t1))] : List (K × V × Nat)).length < 2
      simp)
  have hbka : b ∉ mapKeys [(a, (v1, t1))] := by
    simp [mapKeys]
    exact Ne.symm hab
  have hkeys2 : (mapKeys (mapInsert b (v2, t2) [(a, (v1, t1))])).Perm [b, a] :=
    mapKeys_mapInsert_perm ((v2, t2)) hbka
  have hlen2 : (mapInsert b (v2, t2) [(a, (v1, t1))]).length = 2 := by
    have h := hkeys2.length_eq
    simpa [mapKeys] using h
  have h3 : (⟨mapInsert b (v2, t2) [(a, (v1, t1))], some 2, none, [a, b]⟩ : Cache K V).put
        c v3 t3 =
      ((mapGet c (mapRemove a (mapInsert b (v2, t2) [(a, (v1, t1))]))).map Prod.fst,
        ⟨mapInsert c (v3, t3) (mapRemove a (mapInsert b (v2, t2) [(a, (v1, t1))])),
          some 2, none, [b, c]⟩) := by
    simp [Cache.put, hlen2]
  have hfinal : ((Cache.new (K := K) (V := V)).with_max_size 2).runPuts
      [(a, v1, t1), (b, v2, t2), (c, v3, t3)] =
      ⟨mapInsert c (v3, t3) (mapRemove a (mapInsert b (v2, t2) [(a, (v1, t1))])),
        some 2, none, [b, c]⟩ := by
    simp only [Cache.runPuts, h1, h2, h3]
  have hkeys2' : mapKeys (mapRemove a (mapInsert b (v2, t2) [(a, (v1, t1))])) =
      (mapKeys (mapInsert b (v2, t2) [(a, (v1, t1))])).erase a :=
    mapKeys_mapRemove a _
  have herase : ((mapKeys (mapInsert b (v2, t2) [(a, (v1, t1))])).erase a).Perm [b] := by
    have hba : (b == a) = false := beq_eq_false_iff_ne.mpr (Ne.symm hab)
    have h := hkeys2.erase a
    rw [show ([b, a] : List K).erase a = [b] from by
      simp [List.erase_cons, hba]] at h
    exact h
  have hrem : (mapKeys (mapRemove a (mapInsert b (v2, t2) [(a, (v1, t1))]))).Perm [b] := by
    rw [hkeys2']
    exact herase
  have hcnot : c ∉ mapKeys (mapRemove a (mapInsert b (v2, t2) [(a, (v1, t1))])) := by
    intro hmem
    have := hrem.mem_iff.mp hmem
    simp at this
    exact hbc this.symm
  have hkeys3 : (mapKeys (mapInsert c (v3, t3)
      (mapRemove a (mapInsert b (v2, t2) [(a, (v1, t1))])))).Perm [b, c] := by
    refine (mapKeys_mapInsert_perm ((v3, t3)) hcnot).trans ?_
    refine (hrem.cons c).trans ?_
    exact List.Perm.swap b c []
  constructor
  · rw [hfinal, keys_ttl_none rfl tr]
    exact hkeys3
  · rw [hfinal]
    have hget : mapGet a (mapInsert c (v3, t3)
        (mapRemove a (mapInsert b (v2, t2) [(a, (v1, t1))]))) = none := by
      refine mapGet_eq_none_iff.mpr ?_
      intro hmem
      have := hkeys3.mem_iff.mp hmem
      simp at this
      rcases this with h | h
      · exact hab h
      · exact hac h
    simp [Cache.exists_, hget]

/-- Witness for C3 at the spec's concrete scenario `a=1, b=2, c=3` on
keys 0, 1, 2. -/
theorem fifo_scenario_witness :
    ((((Cache.new (K := Nat) (V := Nat)).with_max_size 2).runPuts
        [(0, 1, 0), (1, 2, 1), (2, 3, 2)]).keys 5).Perm [1, 2] ∧
    (((Cache.new (K := Nat) (V := Nat)).with_max_size 2).runPuts
        [(0, 1, 0), (1, 2, 1), (2, 3, 2)]).exists_ 0 5 = false :=
  fifo_scenario 0 1 2 1 2 3 0 1 2 5 (by decide) (by decide) (by decide)

/-- Counterexample for C9 as stated: with `max_size = 1`, key 0 present,
a second `put 0` first pops key 0's earlier ledger occurrence as the
eviction victim, so afterwards the ledger holds key 0 once, not twice. -/
theorem overwrite_ledger_cex :
    (mapGet 0 ((((Cache.new (K := Nat) (V := Nat)).with_max_size 1).put 0 5 0).2.data)).isSome
      = true ∧
    (((((Cache.new (K := Nat) (V := Nat)).with_max_size 1).put 0 5 0).2.put 0 6 1).2.insert_order.count 0 = 1) := by
  constructor
  · rfl
  · rfl

/-- Claim C9 (amended): when key `k` is present in the store and in the
ledger and no capacity eviction intervenes (store strictly below any
configured bound), `put k` appends `k` to the ledger without removing its
earlier occurrence, so `k` then occurs at least twice in the ledger while
occurring exactly once among the store's keys. -/
theorem overwrite_appends_ledger [LinearOrder K] {c : Cache K V} {k : K} {v : V} {t : Nat}
    (hs : SortedKeys c.data) (hled : k ∈ c.insert_order)
    (hcap : ∀ m, c.max_keys = some m → c.data.length < m) :
    (c.put k v t).2.insert_order = c.insert_order ++ [k] ∧
    2 ≤ (c.put k v t).2.insert_order.count k ∧
    (mapKeys (c.put k v t).2.data).count k = 1 := by
  have hput := put_of_lt_cap (k := k) (v := v) (t := t) hcap
  rw [hput]
  refine ⟨rfl, ?_, ?_⟩
  · show 2 ≤ (c.insert_order ++ [k]).count k
    rw [List.count_append]
    have h1 : 0 < c.insert_order.count k := List.count_pos_iff.mpr hled
    have h2 : ([k] : List K).count k = 1 := by simp
    omega
  · show (mapKeys (mapInsert k (v, t) c.data)).count k = 1
    have hnd' := SortedKeys.nodupKeys (sortedKeys_mapInsert (k := k) (b := (v, t)) hs)
    have hmem : k ∈ mapKeys (mapInsert k (v, t) c.data) :=
      (mem_mapKeys_mapInsert _ _).mpr (Or.inl rfl)
    exact List.count_eq_one_of_mem hnd' hmem

/-- Witness for the amended C9: bound 3, key 0 present once; overwriting
key 0 leaves the ledger `[0, 0]`. -/
theorem overwrite_appends_ledger_witness :
    ((⟨[(0, (5, 0))], some 3, none, [0]⟩ : Cache Nat Nat).put 0 6 1).2.insert_order
      = [0, 0] := by
  have h := @overwrite_appends_ledger Nat Nat _ ⟨[(0, (5, 0))], some 3, none, [0]⟩ 0 6 1
    (List.pairwise_singleton _ _) (by decide)
    (fun m hm => by
      have h3 : (3 : Nat) = m := Option.some.inj hm
      show ([(0, (5, 0))] : List (Nat × Nat × Nat)).length < m
      simp
      omega)
  exact h.1

/-- Claim C10: with `max_size = 0` (and no TTL), every `put` still
inserts: after any nonempty put sequence the store holds exactly the most
recent entry (size 1, above the bound 0), each put having evicted its
predecessor; the ledger likewise holds only the most recent key. -/
theorem zero_capacity [LinearOrder K] (ops : List (K × V × Nat)) (k : K) (v : V) (t : Nat) :
    (((Cache.new (K := K) (V := V)).with_max_size 0).runPuts (ops ++ [(k, v, t)])).data
      = [(k, (v, t))] ∧
    (((Cache.new (K := K) (V := V)).with_max_size 0).runPuts (ops ++ [(k, v, t)])).insert_order
      = [k] :=
  runPuts_max0 ops _ rfl (Or.inl ⟨rfl, rfl⟩) k v t

end Claims

end Cream
